import Mathlib

/-!
Verification of the oneccl_bindings_for_pytorch repository.

Part 1 embeds the Python glue in src/oneccl_bindings_for_pytorch/__init__.py:
the environment-default helper, the version.py install check, the XPU plugin
load step and the is_available tensor check.

Part 2 models the collective-communication engine that the spec defines as the
CORE (the wrapped native library is not part of the visible sources): a ring
all-gather, a tree broadcast, a chain reduction tree and reduce-then-broadcast
all-reduce, each with its Transport exchange list.
-/

/-- A Python exception, as far as the module import code distinguishes them. -/
inductive PyExc where
  | runtimeError (msg : String) : PyExc
  | osError : PyExc
deriving DecidableEq

/-- Embeds set_env_default(env, key, value): new_value = env.get(key, value);
env[key] = new_value. The environment is a partial map from names to values. -/
def set_env_default (env : String → Option String) (key value : String) :
    String → Option String :=
  fun k => if k = key then some ((env key).getD value) else env k

/-- Modelled from the spec: os.path.join(cwd, sub) for the FI_PROVIDER_PATH
default, the lib/prov subdirectory of the install location. The Python
standard library function is outside the repository; joining with a single
separator is its behaviour on the inputs the module uses. -/
def joinPath (a b : String) : String := a ++ "/" ++ b

/-- Embeds the module top level lines 12-18: set CCL_ROOT to the package
directory if unset, then FI_PROVIDER_PATH to its lib/prov subdirectory if
unset. cwd is the package directory. -/
def importEnvSetup (cwd : String) (env : String → Option String) :
    String → Option String :=
  set_env_default (set_env_default env "CCL_ROOT" cwd)
    "FI_PROVIDER_PATH" (joinPath cwd "lib/prov")

/-- Embeds the version.py install check: if not os.path.exists(cwd/version.py)
then raise RuntimeError. The argument says whether the file exists. -/
def checkVersionFile (versionFileExists : Bool) : Except PyExc Unit :=
  if !versionFileExists then
    Except.error (PyExc.runtimeError "oneccl_bindings_for_pytorch is not installed!")
  else Except.ok ()

/-- Outcome of the ctypes.cdll.LoadLibrary call. Modelled from the spec:
the loader is outside the repository; a missing or unloadable plugin file
makes it raise OSError, a usable one loads. -/
inductive LoadAttempt where
  | ok : LoadAttempt
  | osError : LoadAttempt
deriving DecidableEq

/-- What the XPU plugin-load step ends in. -/
inductive XpuLoadResult where
  | loaded : XpuLoadResult
  | warned : XpuLoadResult
  | notAttempted : XpuLoadResult
deriving DecidableEq

/-- Which transport the process ends up using. -/
inductive TransportKind where
  | xpu : TransportKind
  | defaultT : TransportKind
deriving DecidableEq

/-- Embeds the module top level lines 26-33: if torch has an xpu attribute and
torch.xpu.is_available(), try to load the XPU library; an OSError from the
loader is caught and turned into a printed warning. The result is an Except
so that an uncaught exception would be visible as an error value. -/
def xpuLoadStep (hasXpuAttr xpuOk : Bool) (attempt : LoadAttempt) :
    Except PyExc XpuLoadResult :=
  if hasXpuAttr then
    if xpuOk then
      match attempt with
      | LoadAttempt.ok => Except.ok XpuLoadResult.loaded
      | LoadAttempt.osError => Except.ok XpuLoadResult.warned
    else Except.ok XpuLoadResult.notAttempted
  else Except.ok XpuLoadResult.notAttempted

/-- The transport in use after the load step: only a successful plugin load
switches away from the default transport. -/
def transportAfterLoad : XpuLoadResult → TransportKind
  | XpuLoadResult.loaded => TransportKind.xpu
  | XpuLoadResult.warned => TransportKind.defaultT
  | XpuLoadResult.notAttempted => TransportKind.defaultT

/-- The two tensor properties is_available reads: contiguity and the device
id (torch.Tensor.get_device, -1 for CPU tensors). -/
structure CclTensor where
  is_contiguous : Bool
  device : Int
deriving DecidableEq

/-- Loop body of is_available with the devices accumulator made explicit
(the Python code accumulates a set; a list with membership is the same). -/
def is_availableAux : List CclTensor → List Int → Bool
  | [], _ => true
  | t :: ts, devices =>
    if t.is_contiguous = false then false
    else if t.device ∈ devices then false
    else is_availableAux ts (t.device :: devices)

/-- Embeds is_available (lines 41-51): false on the first non-contiguous
tensor or repeated device id, true otherwise. -/
def is_available (tensors : List CclTensor) : Bool :=
  is_availableAux tensors []

lemma is_availableAux_iff (ts : List CclTensor) (ds : List Int) :
    is_availableAux ts ds = true ↔
      (∀ t ∈ ts, t.is_contiguous = true) ∧
      (ts.map CclTensor.device).Nodup ∧
      (∀ t ∈ ts, t.device ∉ ds) := by
  induction ts generalizing ds with
  | nil => simp [is_availableAux]
  | cons t ts ih =>
    simp only [is_availableAux]
    by_cases hc : t.is_contiguous = false
    · simp [hc]
    · rw [if_neg hc]
      by_cases hd : t.device ∈ ds
      · simp only [if_pos hd]
        constructor
        · intro h; exact absurd h (by simp)
        · rintro ⟨-, -, hnd⟩
          exact absurd hd (hnd t (List.mem_cons_self t ts))
      · rw [if_neg hd, ih]
        constructor
        · rintro ⟨hcont, hnd, hmem⟩
          refine ⟨?_, ?_, ?_⟩
          · intro u hu
            rcases List.mem_cons.mp hu with h | h
            · subst h; revert hc; cases u.is_contiguous <;> simp
            · exact hcont u h
          · rw [List.map_cons, List.nodup_cons]
            exact ⟨fun hmm => by
              rcases List.mem_map.mp hmm with ⟨u, hu, he⟩
              exact (hmem u hu) (he ▸ List.mem_cons_self _ _), hnd⟩
          · intro u hu
            rcases List.mem_cons.mp hu with h | h
            · subst h; exact hd
            · intro hin
              exact (hmem u h) (List.mem_cons_of_mem _ hin)
        · rintro ⟨hcont, hnd, hmem⟩
          rw [List.map_cons, List.nodup_cons] at hnd
          refine ⟨fun u hu => hcont u (List.mem_cons_of_mem _ hu), hnd.2, ?_⟩
          intro u hu
          simp only [List.mem_cons]
          rintro (h | h)
          · exact hnd.1 (h ▸ List.mem_map.mpr ⟨u, hu, rfl⟩)
          · exact (hmem u (List.mem_cons_of_mem _ hu)) h

/-- C1: is_available returns true exactly when every tensor in the sequence
is contiguous and no two tensors carry the same device id; it returns false
as soon as either fails. -/
theorem is_available_iff (tensors : List CclTensor) :
    is_available tensors = true ↔
      (∀ t ∈ tensors, t.is_contiguous = true) ∧
      (tensors.map CclTensor.device).Nodup := by
  rw [is_available, is_availableAux_iff]
  simp

/-- C9: is_available on the empty sequence of tensors returns true. -/
theorem is_available_nil : is_available [] = true := rfl

/-- C2: for each of CCL_ROOT and FI_PROVIDER_PATH, module import sets the
variable to the install-derived default when it was unset, and leaves the
prior value untouched when it was set. -/
theorem env_defaults (cwd : String) (env : String → Option String) :
    (env "CCL_ROOT" = none →
      importEnvSetup cwd env "CCL_ROOT" = some cwd) ∧
    (∀ v, env "CCL_ROOT" = some v →
      importEnvSetup cwd env "CCL_ROOT" = some v) ∧
    (env "FI_PROVIDER_PATH" = none →
      importEnvSetup cwd env "FI_PROVIDER_PATH" = some (joinPath cwd "lib/prov")) ∧
    (∀ v, env "FI_PROVIDER_PATH" = some v →
      importEnvSetup cwd env "FI_PROVIDER_PATH" = some v) := by
  have hne : "CCL_ROOT" ≠ "FI_PROVIDER_PATH" := by decide
  refine ⟨fun h => ?_, fun v h => ?_, fun h => ?_, fun v h => ?_⟩ <;>
    simp [importEnvSetup, set_env_default, hne, h]

/-- Environment with FI_PROVIDER_PATH preset and CCL_ROOT unset, for the
witness below. -/
def envSample : String → Option String :=
  fun k => if k = "FI_PROVIDER_PATH" then some "/preset/prov" else none

theorem env_defaults_witness :
    importEnvSetup "/opt/pkg" envSample "CCL_ROOT" = some "/opt/pkg" ∧
    importEnvSetup "/opt/pkg" envSample "FI_PROVIDER_PATH" = some "/preset/prov" :=
  ⟨(env_defaults "/opt/pkg" envSample).1 (by decide),
   (env_defaults "/opt/pkg" envSample).2.2.2 "/preset/prov" (by decide)⟩

/-- C3: the XPU plugin-load step never surfaces an exception, whatever the
loader does; when the load attempt fails with OSError (missing or unloadable
plugin) the step ends in the warning outcome, which keeps the default
transport. -/
theorem xpu_load_never_raises :
    (∀ (h x : Bool) (a : LoadAttempt), ∃ r, xpuLoadStep h x a = Except.ok r) ∧
    xpuLoadStep true true LoadAttempt.osError = Except.ok XpuLoadResult.warned ∧
    transportAfterLoad XpuLoadResult.warned = TransportKind.defaultT := by
  refine ⟨?_, rfl, rfl⟩
  intro h x a
  cases h <;> cases x <;> cases a <;> exact ⟨_, rfl⟩

/-- C10: the import raises RuntimeError with the exact message precisely when
version.py is absent; when it is present the check passes without raising. -/
theorem version_check_iff :
    (∀ e, checkVersionFile e =
        Except.error (PyExc.runtimeError "oneccl_bindings_for_pytorch is not installed!")
      ↔ e = false) ∧
    checkVersionFile true = Except.ok () := by
  refine ⟨fun e => ?_, rfl⟩
  cases e <;> simp [checkVersionFile]

/-!
Part 2: the collective engine. The native library the glue forwards to is not
in the visible sources, so the engine is modelled from the spec. Ranks are
elements of ZMod n (integers in [0, world_size) with wraparound ring
arithmetic); buffers hold one element of an arbitrary type, standing for a
whole elementwise-treated buffer.
-/

/-- Modelled from the spec: state of the ring all-gather after a number of
steps. The missing code is the Collective Engine of the wrapped native
library. agState input t r s is what rank r holds in output slot s after t
ring steps: initially each rank holds only its own input in its own slot;
in step t+1 each rank receives from its ring-predecessor the chunk that
originated t+1 ranks back and places it at that origin-rank slot. -/
def agState {α : Type} {n : ℕ} (input : ZMod n → α) :
    ℕ → ZMod n → ZMod n → Option α
  | 0, r, s => if s = r then some (input r) else none
  | t + 1, r, s =>
      if s = r - 1 - (t : ZMod n) then agState input t (r - 1) s
      else agState input t r s

/-- Modelled from the spec: the full ring all-gather runs world_size - 1
steps. -/
def allGatherOut {α : Type} {n : ℕ} (input : ZMod n → α) (r s : ZMod n) :
    Option α :=
  agState input (n - 1) r s

/-- Modelled from the spec: the Transport sends of the ring all-gather, one
triple (step, sender, receiver) per point-to-point exchange; every rank sends
to its ring-successor in each of the world_size - 1 steps. -/
def agTransfers (n : ℕ) : List (ℕ × ℕ × ℕ) :=
  (List.range (n - 1)).flatMap fun t =>
    (List.range n).map fun r => (t, r, (r + 1) % n)

lemma agState_inv {α : Type} {n : ℕ} [NeZero n] (input : ZMod n → α) :
    ∀ t, t < n → ∀ r s : ZMod n,
      agState input t r s =
        if (r - s).val ≤ t then some (input s) else none := by
  intro t
  induction t with
  | zero =>
    intro _ r s
    by_cases h : s = r
    · subst h
      simp [agState, ZMod.val_eq_zero]
    · have h2 : r - s ≠ 0 := sub_ne_zero.mpr (Ne.symm h)
      have h3 : (r - s).val ≠ 0 := fun hv => h2 ((ZMod.val_eq_zero _).mp hv)
      simp [agState, h, Nat.le_zero, h3]
  | succ t ih =>
    intro ht r s
    have ht' : t < n := Nat.lt_of_succ_lt ht
    by_cases hs : s = r - 1 - (t : ZMod n)
    · rw [show agState input (t + 1) r s =
          if s = r - 1 - (t : ZMod n) then agState input t (r - 1) s
          else agState input t r s from rfl,
        if_pos hs, ih ht' (r - 1) s]
      have h1 : r - 1 - s = (t : ZMod n) := by rw [hs]; ring
      have hval1 : (r - 1 - s).val = t := by rw [h1, ZMod.val_cast_of_lt ht']
      have h2 : r - s = ((t + 1 : ℕ) : ZMod n) := by
        rw [hs]; push_cast; ring
      have hval2 : (r - s).val = t + 1 := by rw [h2, ZMod.val_cast_of_lt ht]
      rw [if_pos (le_of_eq hval1), if_pos (le_of_eq hval2)]
    · rw [show agState input (t + 1) r s =
          if s = r - 1 - (t : ZMod n) then agState input t (r - 1) s
          else agState input t r s from rfl,
        if_neg hs, ih ht' r s]
      have hne : (r - s).val ≠ t + 1 := by
        intro he
        apply hs
        have h4 : r - s = ((t + 1 : ℕ) : ZMod n) := by
          rw [← he, ZMod.natCast_zmod_val]
        have h5 : s = r - ((t : ZMod n) + 1) := by
          have := sub_sub_cancel r s
          rw [h4] at this
          push_cast at this
          linear_combination -this
        rw [h5]; ring
      by_cases hle : (r - s).val ≤ t
      · rw [if_pos hle, if_pos (Nat.le_succ_of_le hle)]
      · rw [if_neg hle, if_neg (by omega)]

/-- C4: after the ring all-gather completes, the output slot s of every rank
holds exactly rank s's original input, for every rank and every slot. -/
theorem allgather_output (n : ℕ) [NeZero n] {α : Type} (input : ZMod n → α)
    (r s : ZMod n) : allGatherOut input r s = some (input s) := by
  have hn : 0 < n := Nat.pos_of_ne_zero (NeZero.ne n)
  rw [allGatherOut, agState_inv input (n - 1) (by omega) r s,
    if_pos (by have := ZMod.val_lt (r - s); omega)]

theorem allgather_output_witness :
    allGatherOut (fun i : ZMod 3 => (i.val : ℤ) + 10) 0 2 =
      some ((fun i : ZMod 3 => (i.val : ℤ) + 10) 2) :=
  allgather_output 3 (fun i : ZMod 3 => (i.val : ℤ) + 10) 0 2

/-- Modelled from the spec: the broadcast tree parent. The spec leaves the
exact tree shape open (binomial or pipelined, section 9); the model fixes the
binary tree on the root-relabeled ranks 0, 1, ..., world_size - 1 in which
the parent of v > 0 is (v - 1) / 2 and 0 is the root. -/
def bparent (v : ℕ) : ℕ := (v - 1) / 2

lemma bparent_lt {v : ℕ} (h : v ≠ 0) : bparent v < v := by
  have := Nat.div_le_self (v - 1) 2
  unfold bparent
  omega

/-- Modelled from the spec: the buffer value a relabeled rank v ends up with
after broadcast, received unchanged from its tree parent, the root holding
the broadcast value itself. The first argument is recursion fuel; fuel v is
enough because the parent chain is strictly decreasing. -/
def bcastValAux {α : Type} (rootBuf : α) : ℕ → ℕ → α
  | 0, _ => rootBuf
  | _ + 1, 0 => rootBuf
  | fuel + 1, v + 1 => bcastValAux rootBuf fuel (bparent (v + 1))

/-- Modelled from the spec: the post-broadcast buffer of rank r when rank
root broadcasts buf root; ranks are relabeled by distance from the root so
that the tree is always rooted at relabeled rank 0. -/
def bcast {n : ℕ} {α : Type} (root : ZMod n) (buf : ZMod n → α) (r : ZMod n) : α :=
  bcastValAux (buf root) ((r - root).val) ((r - root).val)

/-- One Transport event of a single rank during broadcast. -/
inductive BEvent where
  | recv : ℕ → BEvent
  | send : ℕ → BEvent
  | ret : BEvent
deriving DecidableEq

/-- Children of relabeled rank v in the broadcast tree over n ranks. -/
def bchildren (n v : ℕ) : List ℕ :=
  (List.range n).filter fun u => decide (u ≠ 0) && decide (bparent u = v)

/-- Modelled from the spec: the local event order of relabeled rank v during
broadcast; a non-root rank first receives from its tree parent, then forwards
to its tree children, and only then returns. -/
def bcastTrace (n v : ℕ) : List BEvent :=
  (if v = 0 then [] else [BEvent.recv (bparent v)]) ++
    (bchildren n v).map BEvent.send ++ [BEvent.ret]

/-- Modelled from the spec: the Transport exchanges of a whole broadcast, one
pair (parent, child) per tree edge into a non-root rank. -/
def bcastTransfers (n : ℕ) : List (ℕ × ℕ) :=
  (List.range n).filterMap fun v =>
    if v = 0 then none else some (bparent v, v)

lemma bcastValAux_eq {α : Type} (rootBuf : α) :
    ∀ fuel v, v ≤ fuel → bcastValAux rootBuf fuel v = rootBuf := by
  intro fuel
  induction fuel with
  | zero => intro v _; rfl
  | succ fuel ih =>
    intro v hv
    cases v with
    | zero => rfl
    | succ v =>
      show bcastValAux rootBuf fuel (bparent (v + 1)) = rootBuf
      exact ih _ (by have := bparent_lt (v := v + 1) (by omega); omega)

lemma bcast_eq_root {n : ℕ} {α : Type} (root : ZMod n) (buf : ZMod n → α)
    (r : ZMod n) : bcast root buf r = buf root :=
  bcastValAux_eq (buf root) _ _ le_rfl

/-- C5: for world_size at least 2, broadcast from any root leaves every rank
with the root's pre-call buffer, and a non-root rank's local event trace
never reaches its return event before a receive event has occurred. -/
theorem broadcast_delivers_root (n : ℕ) [NeZero n] (_hn : 2 ≤ n) {α : Type}
    (root : ZMod n) (buf : ZMod n → α) (r : ZMod n) :
    bcast root buf r = buf root ∧
    (r ≠ root → ∀ k, BEvent.ret ∈ (bcastTrace n ((r - root).val)).take k →
      ∃ p, BEvent.recv p ∈ (bcastTrace n ((r - root).val)).take k) := by
  refine ⟨bcast_eq_root root buf r, fun hr k hk => ?_⟩
  have hv : (r - root).val ≠ 0 := by
    intro h0
    exact hr (sub_eq_zero.mp ((ZMod.val_eq_zero _).mp h0))
  refine ⟨bparent ((r - root).val), ?_⟩
  have htr : bcastTrace n ((r - root).val) =
      BEvent.recv (bparent ((r - root).val)) ::
        ((bchildren n ((r - root).val)).map BEvent.send ++ [BEvent.ret]) := by
    rw [bcastTrace, if_neg hv]; rfl
  rw [htr] at hk ⊢
  cases k with
  | zero => simp at hk
  | succ k => simp [List.take_succ_cons]

theorem broadcast_delivers_root_witness :
    bcast (0 : ZMod 2) (fun _ => (5 : ℤ)) 1 = (fun _ : ZMod 2 => (5 : ℤ)) 0 ∧
    ∃ p, BEvent.recv p ∈ (bcastTrace 2 (((1 : ZMod 2) - 0).val)).take 2 :=
  ⟨(broadcast_delivers_root 2 (by decide) 0 (fun _ => (5 : ℤ)) 1).1,
   (broadcast_delivers_root 2 (by decide) 0 (fun _ => (5 : ℤ)) 1).2
     (by decide) 2 (by decide)⟩

/-- Modelled from the spec: partial results of the chain reduction tree (a
pipelined tree on the root-relabeled ranks: relabeled rank n-1 is the leaf,
every other rank v waits for the partial of its single child v+1, combines
it with its own input in the fixed order child-partial-then-own-value, and
forwards to v-1). redFoldAux op inp k i is the partial that combines the
inputs of relabeled ranks i, i+1, ..., i+k. -/
def redFoldAux {α : Type} (op : α → α → α) (inp : ℕ → α) : ℕ → ℕ → α
  | 0, i => inp i
  | k + 1, i => op (redFoldAux op inp k (i + 1)) (inp i)

/-- Modelled from the spec: the value the reduction delivers at the root,
the partial combining all world_size relabeled ranks. -/
def redResult {α : Type} (op : α → α → α) (n : ℕ) (inp : ℕ → α) : α :=
  redFoldAux op inp (n - 1) 0

/-- Modelled from the spec: the output buffer of rank r after
Reduce(root, op): only the root's output buffer receives the combined
value, every other rank keeps its pre-call output buffer. -/
def reduceOut {n : ℕ} {α : Type} (op : α → α → α) (root : ZMod n)
    (input preOut : ZMod n → α) (r : ZMod n) : α :=
  if r = root then redResult op n (fun v => input (root + (v : ZMod n)))
  else preOut r

/-- Modelled from the spec: the Transport exchanges of the chain reduction,
one pair (child, parent) per tree edge, in relabeled ranks. -/
def redTransfers (n : ℕ) : List (ℕ × ℕ) :=
  (List.range (n - 1)).map fun v => (v + 1, v)

lemma redFoldAux_sum (inp : ℕ → ℤ) :
    ∀ k i, redFoldAux (· + ·) inp k i = ∑ j ∈ Finset.range (k + 1), inp (i + j) := by
  intro k
  induction k with
  | zero => intro i; simp [redFoldAux]
  | succ k ih =>
    intro i
    rw [show redFoldAux (· + ·) inp (k + 1) i =
        redFoldAux (· + ·) inp k (i + 1) + inp i from rfl, ih (i + 1),
      Finset.sum_range_succ' (fun j => inp (i + j)) (k + 1)]
    congr 1
    apply Finset.sum_congr rfl
    intro j _
    congr 1
    omega

lemma redResult_sum {n : ℕ} (hn : 0 < n) (inp : ℕ → ℤ) :
    redResult (· + ·) n inp = ∑ j ∈ Finset.range n, inp j := by
  rw [redResult, redFoldAux_sum]
  have h : n - 1 + 1 = n := by omega
  rw [h]
  exact Finset.sum_congr rfl (by simp)

lemma sum_range_zmod {n : ℕ} [NeZero n] (f : ZMod n → ℤ) :
    ∑ j ∈ Finset.range n, f (j : ZMod n) = ∑ x : ZMod n, f x := by
  refine Finset.sum_nbij' (fun a => (a : ZMod n)) (fun x => x.val) ?_ ?_ ?_ ?_ ?_
  · intro a _; exact Finset.mem_univ _
  · intro x _; exact Finset.mem_range.mpr (ZMod.val_lt x)
  · intro a ha; exact ZMod.val_cast_of_lt (Finset.mem_range.mp ha)
  · intro x _; exact ZMod.natCast_zmod_val x
  · intro a _; rfl

lemma sum_shift {n : ℕ} [NeZero n] (f : ZMod n → ℤ) (root : ZMod n) :
    ∑ x : ZMod n, f (root + x) = ∑ x : ZMod n, f x := by
  refine Function.Bijective.sum_comp ⟨fun a b h => ?_, fun y => ⟨y - root, by ring⟩⟩ f
  exact add_left_cancel h

/-- C6: after Reduce(root, op), every non-root rank's output buffer is
unchanged from its pre-call state, whatever the operator; and with op = sum
the root's output buffer holds the sum of all ranks' inputs (so for
world_size 4 with per-rank inputs 1,2,3,4 and root 0, rank 0 gets 10, see
the witness). -/
theorem reduce_root_only (n : ℕ) [NeZero n] (op : ℤ → ℤ → ℤ)
    (input preOut : ZMod n → ℤ) (root r : ZMod n) :
    (r ≠ root → reduceOut op root input preOut r = preOut r) ∧
    reduceOut (· + ·) root input preOut root = ∑ x : ZMod n, input x := by
  constructor
  · intro hr
    rw [reduceOut, if_neg hr]
  · rw [reduceOut, if_pos rfl,
      redResult_sum (Nat.pos_of_ne_zero (NeZero.ne n)),
      sum_range_zmod (fun x => input (root + x)), sum_shift input root]

theorem reduce_root_only_witness :
    reduceOut (· + ·) (0 : ZMod 4) (fun x : ZMod 4 => (x.val : ℤ) + 1)
        (fun _ => (99 : ℤ)) 1 = 99 ∧
    reduceOut (· + ·) (0 : ZMod 4) (fun x : ZMod 4 => (x.val : ℤ) + 1)
        (fun _ => (99 : ℤ)) 0 = 10 :=
  ⟨(reduce_root_only 4 (· + ·) (fun x : ZMod 4 => (x.val : ℤ) + 1)
      (fun _ => (99 : ℤ)) 0 1).1 (by decide),
   ((reduce_root_only 4 (· + ·) (fun x : ZMod 4 => (x.val : ℤ) + 1)
      (fun _ => (99 : ℤ)) 0 1).2).trans (by decide)⟩

/-- Modelled from the spec: all-reduce as reduce-then-broadcast: first the
chain reduction delivers the combined value into rank 0's buffer (the other
buffers stay as the inputs), then rank 0 broadcasts its buffer. -/
def allReduceOut {n : ℕ} {α : Type} (op : α → α → α) (input : ZMod n → α)
    (r : ZMod n) : α :=
  bcast 0 (reduceOut op 0 input input) r

/-- Modelled from the spec: the Transport exchanges of the all-reduce are
those of its reduce phase followed by those of its broadcast phase. -/
def allReduceTransfers (n : ℕ) : List (ℕ × ℕ) :=
  redTransfers n ++ bcastTransfers n

lemma allReduceOut_eq {n : ℕ} [NeZero n] (op : ℤ → ℤ → ℤ)
    (input : ZMod n → ℤ) (r : ZMod n) :
    allReduceOut op input r = redResult op n (fun v => input (v : ZMod n)) := by
  rw [allReduceOut, bcast_eq_root, reduceOut, if_pos rfl]
  congr 1
  funext v
  rw [zero_add]

/-- C7: the all-reduce is deterministic: identical inputs give identical
outputs; its output is identical on all ranks; and that common output is
exactly the fixed chain reduction order's result, whatever the operator
(so not necessarily the naive left-to-right rank order). -/
theorem allreduce_deterministic (n : ℕ) [NeZero n] (op : ℤ → ℤ → ℤ)
    (input input' : ZMod n → ℤ) (r r' : ZMod n) :
    ((∀ x, input x = input' x) →
      allReduceOut op input r = allReduceOut op input' r) ∧
    allReduceOut op input r = allReduceOut op input r' ∧
    allReduceOut op input r = redResult op n (fun v => input (v : ZMod n)) := by
  refine ⟨fun h => ?_, ?_, allReduceOut_eq op input r⟩
  · rw [funext h]
  · rw [allReduceOut_eq op input r, allReduceOut_eq op input r']

theorem allreduce_deterministic_witness :
    allReduceOut (· + ·) (fun x : ZMod 3 => (x.val : ℤ)) 1 =
      allReduceOut (· + ·) (fun x : ZMod 3 => (x.val : ℤ) + 0) 1 ∧
    allReduceOut (· + ·) (fun x : ZMod 3 => (x.val : ℤ)) 1 =
      allReduceOut (· + ·) (fun x : ZMod 3 => (x.val : ℤ)) 2 ∧
    allReduceOut (· + ·) (fun x : ZMod 3 => (x.val : ℤ)) 1 =
      redResult (· + ·) 3 (fun v => (fun x : ZMod 3 => (x.val : ℤ)) (v : ZMod 3)) :=
  ⟨(allreduce_deterministic 3 (· + ·) (fun x : ZMod 3 => (x.val : ℤ))
      (fun x : ZMod 3 => (x.val : ℤ) + 0) 1 2).1 (fun _ => (add_zero _).symm),
   (allreduce_deterministic 3 (· + ·) (fun x : ZMod 3 => (x.val : ℤ))
      (fun x : ZMod 3 => (x.val : ℤ) + 0) 1 2).2.1,
   (allreduce_deterministic 3 (· + ·) (fun x : ZMod 3 => (x.val : ℤ))
      (fun x : ZMod 3 => (x.val : ℤ) + 0) 1 2).2.2⟩

/-- C8: with world_size 1 every collective is a no-op copy: the sole rank's
input becomes its output for broadcast, all-gather, reduce and all-reduce,
and every Transport exchange list is empty — the sole rank's broadcast trace
is just its return event. -/
theorem world_size_one_noop (op : ℤ → ℤ → ℤ) (input buf preOut : ZMod 1 → ℤ)
    (root r s : ZMod 1) :
    bcast root buf r = buf r ∧
    allGatherOut input r s = some (input r) ∧
    reduceOut op root input preOut r = input r ∧
    allReduceOut op input r = input r ∧
    bcastTransfers 1 = [] ∧ redTransfers 1 = [] ∧ agTransfers 1 = [] ∧
    allReduceTransfers 1 = [] ∧
    bcastTrace 1 ((r - root).val) = [BEvent.ret] := by
  have he : ∀ a b : ZMod 1, a = b := fun a b => Subsingleton.elim a b
  refine ⟨?_, ?_, ?_, ?_, by decide, rfl, rfl, by decide, ?_⟩
  · rw [bcast_eq_root, he root r]
  · rw [allGatherOut]
    show agState input 0 r s = some (input r)
    rw [show agState input 0 r s =
        if s = r then some (input r) else none from rfl, if_pos (he s r)]
  · rw [reduceOut, if_pos (he r root)]
    show input (root + ((0 : ℕ) : ZMod 1)) = input r
    exact congrArg input (he _ r)
  · rw [allReduceOut, bcast_eq_root, reduceOut, if_pos rfl]
    show input (0 + ((0 : ℕ) : ZMod 1)) = input r
    exact congrArg input (he _ r)
  · rw [he (r - root) 0, ZMod.val_zero]
    decide

theorem is_available_iff_witness :
    is_available [⟨true, 0⟩, ⟨true, 1⟩] = true :=
  (is_available_iff [⟨true, 0⟩, ⟨true, 1⟩]).mpr ⟨by decide, by decide⟩

theorem version_check_iff_witness :
    checkVersionFile false =
      Except.error (PyExc.runtimeError "oneccl_bindings_for_pytorch is not installed!") :=
  (version_check_iff.1 false).mpr rfl
